import Mathlib

/-!
Shallow embedding of the Truss bridge's reconciliation engine
(`splitContent`, `ProcessPost`, the database helpers and the Bluesky
lookup helpers) and proofs about the frozen specification claims.

Go strings are byte sequences indexed by byte position, so content is
modelled as `List Nat` with each element a byte value.  Identifiers,
hashes and URIs are likewise byte lists; the code only compares,
concatenates and splits them.
-/

set_option linter.unusedVariables false
set_option maxRecDepth 100000
set_option maxHeartbeats 4000000

/-- Bytes of a Go string: each element is one byte value (0..255 in use). -/
abbrev Bytes := List Nat

namespace Truss

/-- Go `strings.Split(s, sep)` for a single-byte separator `sep`:
splitting the empty string yields `[[]]`, like Go's `[""]`. -/
def splitOnByte (sep : Nat) : Bytes → List Bytes
  | [] => [[]]
  | b :: rest =>
    if b = sep then [] :: splitOnByte sep rest
    else
      match splitOnByte sep rest with
      | [] => [[b]]
      | w :: ws => (b :: w) :: ws

/-- Decimal digits of `n`, most significant first, with `fuel` bounding the
division chain (`n + 1` always suffices). -/
def natDigitsAux : Nat → Nat → Bytes
  | 0, _ => []
  | fuel + 1, n =>
    if n < 10 then [48 + n] else natDigitsAux fuel (n / 10) ++ [48 + n % 10]

/-- Decimal digits of `n` as ASCII bytes, as `fmt.Sprintf("%d", n)` renders them. -/
def natDigits (n : Nat) : Bytes := natDigitsAux (n + 1) n

/-- Bytes of `fmt.Sprintf(" (%d/%d)", i, total)`: space, open paren, digits,
slash, digits, close paren. -/
def suffixBytes (i total : Nat) : Bytes :=
  32 :: 40 :: (natDigits i ++ 47 :: (natDigits total ++ [41]))

/-- Go: `estimatedTotal := (len(content) + maxLength - 1) / (maxLength - 10)`
with `maxLength = 300`. -/
def estOf (content : Bytes) : Nat :=
  (content.length + 300 - 1) / (300 - 10)

/-- Go: `suffixSize := len(fmt.Sprintf(" (%d/%d)", estimatedTotal, estimatedTotal))`. -/
def reserveOf (content : Bytes) : Nat :=
  (suffixBytes (estOf content) (estOf content)).length

/-- Go: `effectiveMaxLength := maxLength - suffixSize` (`maxLength = 300`). -/
def effMaxOf (content : Bytes) : Nat :=
  300 - reserveOf content

/-- Go: `for breakPoint > 0 && remaining[breakPoint] != ' ' { breakPoint-- }`. -/
def backScan (remaining : Bytes) : Nat → Nat
  | 0 => 0
  | b + 1 => if remaining.getD (b + 1) 0 = 32 then b + 1 else backScan remaining b

/-- Forward space scan with explicit step budget: checks indices
`i, i+1, ...` while budget remains. -/
def fwdScanAux (remaining : Bytes) : Nat → Nat → Option Nat
  | 0, _ => none
  | fuel + 1, i =>
    if remaining.getD i 0 = 32 then some i else fwdScanAux remaining fuel (i + 1)

/-- Go: `for i := breakPoint; i < min(effectiveMaxLength, len(remaining)); i++
{ if remaining[i] == ' ' { breakPoint = i; break } }` — first space at
index `≥ i` and `< stop`, if any. -/
def fwdScan (remaining : Bytes) (stop : Nat) (i : Nat) : Option Nat :=
  fwdScanAux remaining (stop - i) i

/-- Break-point selection of `splitContent`'s loop body: scan back from
`effMax` for a space; if that lands in the front half, scan forward from the
midpoint; if the forward scan finds nothing past the midpoint, hard-cut at
`effMax`. -/
def breakPointFor (effMax : Nat) (remaining : Bytes) : Nat :=
  if backScan remaining effMax < effMax / 2 then
    match fwdScan remaining (min effMax remaining.length) (effMax / 2) with
    | some i => if i ≤ effMax / 2 then effMax else i
    | none => effMax
  else backScan remaining effMax

/-- Remaining text after one iteration of `splitContent`'s loop: Go advances
past the consumed byte when it is the space at the break point. -/
def nextRemaining (effMax : Nat) (remaining : Bytes) : Bytes :=
  if breakPointFor effMax remaining < remaining.length ∧
      remaining.getD (breakPointFor effMax remaining) 0 = 32 then
    remaining.drop (breakPointFor effMax remaining + 1)
  else remaining.drop (breakPointFor effMax remaining)

/-- Cutting loop of `splitContent` (`for len(remaining) > 0 { ... }`).  Fuel
bounds the iteration count; `remaining.length + 1` suffices whenever the
effective maximum is positive (each iteration consumes at least one byte).
Exhausted fuel models the Go loop failing to progress. -/
def splitLoop (effMax : Nat) : Nat → Bytes → List Bytes
  | 0, _ => []
  | fuel + 1, remaining =>
    if remaining = [] then []
    else if remaining.length ≤ effMax then [remaining]
    else
      remaining.take (breakPointFor effMax remaining) ::
        splitLoop effMax fuel (nextRemaining effMax remaining)

/-- Separator consumed at each cut boundary of `splitLoop`: the single space
when the break point sits on one, nothing on a hard cut. -/
def cutSeps (effMax : Nat) : Nat → Bytes → List Bytes
  | 0, _ => []
  | fuel + 1, remaining =>
    if remaining = [] then []
    else if remaining.length ≤ effMax then []
    else
      (if breakPointFor effMax remaining < remaining.length ∧
          remaining.getD (breakPointFor effMax remaining) 0 = 32 then [32]
        else []) ::
        cutSeps effMax fuel (nextRemaining effMax remaining)

/-- Go: `for i := range parts { parts[i] += fmt.Sprintf(" (%d/%d)", i+1, len(parts)) }`,
started at position `i`. -/
def addSuffixes (total : Nat) : Nat → List Bytes → List Bytes
  | _, [] => []
  | i, p :: ps => (p ++ suffixBytes (i + 1) total) :: addSuffixes total (i + 1) ps

/-- Embedding of `splitContent` (src/main.go:371-439, identical in the
revision inside src/unnamed/part_000). -/
def splitContent (content : Bytes) : List Bytes :=
  if content.length ≤ 300 then [content]
  else
    let cuts := splitLoop (effMaxOf content) (content.length + 1) content
    addSuffixes cuts.length 0 cuts

/-- Last-resort truncation in `ProcessPost`'s posting loop:
`if len(part) > 300 { part = part[:297] + "..." }`. -/
def truncatePart (part : Bytes) : Bytes :=
  if 300 < part.length then part.take 297 ++ [46, 46, 46] else part

/-! ### Database model (database.go)

The three sqlite tables are modelled as association lists; `ainsert` is
`INSERT OR REPLACE`, `alookup = none` plays `sql.ErrNoRows`. -/

/-- Association-list lookup (first match wins, like a primary-key table). -/
def alookup (k : Bytes) : List (Bytes × Bytes) → Option Bytes
  | [] => none
  | (k2, v) :: rest => if k2 = k then some v else alookup k rest

/-- `INSERT OR REPLACE`: overwrite the row with key `k` or append one. -/
def ainsert (k v : Bytes) : List (Bytes × Bytes) → List (Bytes × Bytes)
  | [] => [(k, v)]
  | (k2, v2) :: rest =>
    if k2 = k then (k, v) :: rest else (k2, v2) :: ainsert k v rest

/-- Persistent state: `post_mappings` (mastodon id ↦ comma-joined bluesky
ids), `edits` (edit id ↦ original id) and the `state` key/value table. -/
structure Db where
  postMappings : List (Bytes × Bytes)
  edits : List (Bytes × Bytes)
  state : List (Bytes × Bytes)
deriving DecidableEq

/-- Bytes of the string `"content_hash_"`, the `state`-table key base used by
`SaveContentHash`/`GetContentHash`. -/
def hashKeyBase : Bytes :=
  [99, 111, 110, 116, 101, 110, 116, 95, 104, 97, 115, 104, 95]

/-- Key of the stored content hash for `id`: `"content_hash_" + id`. -/
def contentHashKey (id : Bytes) : Bytes := hashKeyBase ++ id

/-- `SavePostMapping`: store the bluesky ids joined with commas under the
mastodon id, replacing any previous row. -/
def savePostMapping (db : Db) (id : Bytes) (bskyIDs : List Bytes) : Db :=
  { db with postMappings := ainsert id (List.intercalate [44] bskyIDs) db.postMappings }

/-- `GetBlueskyIDsForMastodonPost`: split the stored row on commas;
`none` models the `sql.ErrNoRows` error for a missing row. -/
def getBlueskyIDs (db : Db) (id : Bytes) : Option (List Bytes) :=
  (alookup id db.postMappings).map (splitOnByte 44)

/-- `GetContentHash`: missing rows are reported as the empty string with a
nil error, so the model returns the stored value or `[]`. -/
def getContentHash (db : Db) (id : Bytes) : Bytes :=
  (alookup (contentHashKey id) db.state).getD []

/-- `SaveContentHash`: `INSERT OR REPLACE` into the `state` table. -/
def saveContentHash (db : Db) (id h : Bytes) : Db :=
  { db with state := ainsert (contentHashKey id) h db.state }

/-- `MarkAsEdit`: `INSERT OR REPLACE` into the `edits` table. -/
def markAsEdit (db : Db) (editID origID : Bytes) : Db :=
  { db with edits := ainsert editID origID db.edits }

/-- `Database.CheckIfEdit` (database.go): when Mastodon supplied a distinct
original id, record the lineage via `MarkAsEdit` and report an edit;
otherwise consult the `edits` table read-only. -/
def checkIfEdit (db : Db) (mastodonID originalID : Bytes) : (Bytes × Bool) × Db :=
  if originalID ≠ [] ∧ originalID ≠ mastodonID then
    ((originalID, true), markAsEdit db mastodonID originalID)
  else
    match alookup mastodonID db.edits with
    | some origID => ((origID, true), db)
    | none => (([], false), db)

/-! ### Posts, collaborators and the effect trace -/

/-- Fields of `mastodon.Post` that `ProcessPost` reads. -/
structure Post where
  id : Bytes
  content : Bytes
  reblog : Bool
  visibility : Bytes
  createdAt : Int
  inReplyToID : Bytes
  hashtags : List Bytes
  originalID : Bytes
  username : Bytes
  instanceName : Bytes
  displayName : Bytes
deriving DecidableEq

/-- Bytes of the string `"public"`. -/
def pubVis : Bytes := [112, 117, 98, 108, 105, 99]

/-- ASCII case folding of one byte, the fragment of `strings.EqualFold`
exercised by hashtag comparison on ASCII tags. -/
def foldByte (b : Nat) : Nat := if 65 ≤ b ∧ b ≤ 90 then b + 32 else b

/-- `strings.EqualFold` on ASCII byte strings. -/
def equalFold (a b : Bytes) : Bool := a.map foldByte == b.map foldByte

/-- Bridge configuration field used by `ProcessPost`. -/
structure Config where
  filterHashtag : Bytes

/-- Mastodon collaborator as seen by `ProcessPost` while resolving a reply
parent: the outcome of `GetPostWithEdits(post.InReplyToID)` and of
`bluesky.LookupBridgedMastodonPost` (uri, cid).  Errors carry a message. -/
structure Masto where
  getParent : Except Bytes Post
  lookupBridged : Except Bytes (Bytes × Bytes)

/-- Bluesky collaborator: the raw `"uri|cid"` result (or error) of the k-th
create call (`CreatePost` or `CreateReply`) made by one `ProcessPost` run.
Delete outcomes are irrelevant: the code ignores `DeletePost` errors. -/
structure Bsky where
  create : Nat → Except Bytes Bytes

/-- Observable side effects of one `ProcessPost` run, in order. -/
inductive Eff where
  | createTop (text : Bytes)
  | createReply (text : Bytes) (cid uri : Bytes)
  | deletePost (rid : Bytes)
  | saveMapping (id val : Bytes)
  | saveHash (id h : Bytes)
  | markEdit (editID origID : Bytes)
deriving DecidableEq

/-- Whether an effect is a `SavePostMapping` write. -/
def isMappingWriteB : Eff → Bool
  | .saveMapping _ _ => true
  | _ => false

/-- Whether an effect is a `SavePostMapping` write keyed by `id`. -/
def isMappingForB (id : Bytes) : Eff → Bool
  | .saveMapping j _ => j == id
  | _ => false

/-- Whether an effect is a `DeletePost` attempt. -/
def isDeleteB : Eff → Bool
  | .deletePost _ => true
  | _ => false

/-- Whether an effect is a `CreatePost`/`CreateReply` call. -/
def isCreateB : Eff → Bool
  | .createTop _ => true
  | .createReply _ _ _ => true
  | _ => false

/-! ### The cross-post executor loop (`for i, part := range parts` in
`ProcessPost`, identical in both revisions of main.go) -/

/-- Posting loop of `ProcessPost`.  `i` is the loop index (also the create
call counter), `acc` the `bskyIDs` collected so far, `lastUri`/`lastCid` the
reply target.  The part is re-truncated defensively before posting; the
first part of a parentless run is a top-level post, everything else a reply.
On a create error the loop deletes the URI field of every recorded id and
surfaces the error.  A well-formed `"uri|cid"` result (exactly one `|`)
updates the reply target and is recorded; a malformed one is skipped
(`continue`).  Returns the final `bskyIDs` (or the error) and the effect
trace of this loop. -/
def postParts (bsky : Bsky) (parentUri parentCid : Bytes) :
    Nat → List Bytes → List Bytes → Bytes → Bytes →
    Except Bytes (List Bytes) × List Eff
  | _, [], acc, _, _ => (Except.ok acc, [])
  | i, part :: rest, acc, lastUri, lastCid =>
    let part2 := truncatePart part
    let eff :=
      if i = 0 ∧ parentUri = [] ∧ parentCid = [] then Eff.createTop part2
      else Eff.createReply part2 lastCid lastUri
    match bsky.create i with
    | Except.error e =>
        (Except.error e,
          eff :: acc.map fun id => Eff.deletePost ((splitOnByte 124 id).headD []))
    | Except.ok result =>
        let rp := splitOnByte 124 result
        if rp.length = 2 then
          let next :=
            postParts bsky parentUri parentCid (i + 1) rest (acc ++ [result])
              (rp.headD []) (rp.getD 1 [])
          (next.1, eff :: next.2)
        else
          let next := postParts bsky parentUri parentCid (i + 1) rest acc lastUri lastCid
          (next.1, eff :: next.2)

/-! ### ProcessPost, first revision (src/main.go:200-359) -/

/-- Reply-parent lookup of the first revision: only the local mapping is
consulted; the last element of the parent's thread supplies `(uri, cid)`
when it splits into exactly two fields, otherwise both stay empty. -/
def resolveParentV1 (db : Db) (post : Post) : Bytes × Bytes :=
  if post.inReplyToID = [] then ([], [])
  else
    match getBlueskyIDs db post.inReplyToID with
    | some ids =>
        let ps := splitOnByte 124 (ids.getLastD [])
        if ps.length = 2 then (ps.headD [], ps.getD 1 []) else ([], [])
    | none => ([], [])

/-- Record-key extraction used when deleting an edited post's previous
parts (src/main.go:260-269): take the URI field, and if it has at least
four `/`-separated segments use the last one, else keep the whole id. -/
def parseDeleteIdV1 (id : Bytes) : Bytes :=
  let uriParts := splitOnByte 47 ((splitOnByte 124 id).headD [])
  if 4 ≤ uriParts.length then uriParts.getLastD [] else id

/-- `ProcessPost`, first revision (src/main.go): skip reblogs, non-public
posts and posts missing the filter hashtag; resolve a same-account reply
parent from the local mapping; classify edits via `CheckIfEdit` (which may
write the `edits` table); best-effort delete the original's previous parts
on an edit; post the split parts; then write the mapping under the post id
and, for an edit with a distinct original, under the original id too.
Returns (result, final state, effect trace). -/
def processPostV1 (cfg : Config) (db : Db) (bsky : Bsky) (post : Post) :
    Except Bytes Unit × Db × List Eff :=
  if post.reblog then (Except.ok (), db, [])
  else if post.visibility ≠ pubVis then (Except.ok (), db, [])
  else if cfg.filterHashtag ≠ [] ∧
      ¬ (post.hashtags.any fun t => equalFold t cfg.filterHashtag) then
    (Except.ok (), db, [])
  else
    let pq := resolveParentV1 db post
    let cie := checkIfEdit db post.id post.originalID
    let origID := cie.1.1
    let isEdit := cie.1.2
    let db1 := cie.2
    let markEffs : List Eff :=
      if post.originalID ≠ [] ∧ post.originalID ≠ post.id then
        [Eff.markEdit post.id post.originalID]
      else []
    let delEffs : List Eff :=
      if isEdit then
        match getBlueskyIDs db1 origID with
        | some ids => ids.map fun id => Eff.deletePost (parseDeleteIdV1 id)
        | none => []
      else []
    let r := postParts bsky pq.1 pq.2 0 (splitContent post.content) []
      (if pq.1 ≠ [] ∧ pq.2 ≠ [] then pq.1 else [])
      (if pq.1 ≠ [] ∧ pq.2 ≠ [] then pq.2 else [])
    match r.1 with
    | Except.error e => (Except.error e, db1, markEffs ++ delEffs ++ r.2)
    | Except.ok bskyIDs =>
        let db2 := savePostMapping db1 post.id bskyIDs
        let joined := List.intercalate [44] bskyIDs
        if isEdit ∧ origID ≠ post.id then
          (Except.ok (), savePostMapping db2 origID bskyIDs,
            markEffs ++ delEffs ++ r.2 ++
              [Eff.saveMapping post.id joined, Eff.saveMapping origID joined])
        else
          (Except.ok (), db2,
            markEffs ++ delEffs ++ r.2 ++ [Eff.saveMapping post.id joined])

/-! ### ProcessPost, second revision (src/unnamed/part_000:1270-1460) -/

/-- Reply-parent resolution of the second revision
(src/unnamed/part_000:1328-1382).  `none` means the run returns nil without
posting (the skip paths: lookup error from `LookupBridgedMastodonPost`, or
the final `parentUri == ""` check).  `some (uri, cid)` proceeds; a post
that is no reply proceeds with both fields empty. -/
def resolveParentV2 (db : Db) (masto : Masto) (post : Post) :
    Option (Bytes × Bytes) :=
  if post.inReplyToID = [] then some ([], [])
  else
    match getBlueskyIDs db post.inReplyToID with
    | some ids =>
        let ps := splitOnByte 124 (ids.getLastD [])
        if ps.length = 2 then
          if ps.headD [] = [] then none else some (ps.headD [], ps.getD 1 [])
        else none
    | none =>
        match masto.getParent with
        | Except.error _ => none
        | Except.ok pp =>
            if pp.username ≠ [] ∧ pp.instanceName ≠ [] then
              match masto.lookupBridged with
              | Except.error _ => none
              | Except.ok uc => if uc.1 = [] then none else some uc
            else none

/-- `ProcessPost`, second revision (src/unnamed/part_000): the same skip
checks, then content-hash dedup (`GetContentHash`), best-effort deletion of
the previously mirrored parts when the stored hash differs and is
non-empty, reply-parent resolution with cross-platform fallback (a post
whose parent cannot be found is skipped with a nil return), the posting
loop, and finally `SavePostMapping` and `SaveContentHash`. -/
def processPostV2 (cfg : Config) (hashFn : Bytes → Bytes) (db : Db)
    (masto : Masto) (bsky : Bsky) (post : Post) :
    Except Bytes Unit × Db × List Eff :=
  if post.reblog then (Except.ok (), db, [])
  else if post.visibility ≠ pubVis then (Except.ok (), db, [])
  else if cfg.filterHashtag ≠ [] ∧
      ¬ (post.hashtags.any fun t => equalFold t cfg.filterHashtag) then
    (Except.ok (), db, [])
  else
    let contentHash := hashFn post.content
    let existingHash := getContentHash db post.id
    if existingHash = contentHash then (Except.ok (), db, [])
    else
      let delEffs : List Eff :=
        if existingHash ≠ [] then
          match getBlueskyIDs db post.id with
          | some ids => if 0 < ids.length then ids.map Eff.deletePost else []
          | none => []
        else []
      match resolveParentV2 db masto post with
      | none => (Except.ok (), db, delEffs)
      | some pq =>
          let r := postParts bsky pq.1 pq.2 0 (splitContent post.content) []
            (if pq.1 ≠ [] ∧ pq.2 ≠ [] then pq.1 else [])
            (if pq.1 ≠ [] ∧ pq.2 ≠ [] then pq.2 else [])
          match r.1 with
          | Except.error e => (Except.error e, db, delEffs ++ r.2)
          | Except.ok bskyIDs =>
              let db1 := savePostMapping db post.id bskyIDs
              let db2 := saveContentHash db1 post.id contentHash
              (Except.ok (), db2,
                delEffs ++ r.2 ++
                  [Eff.saveMapping post.id (List.intercalate [44] bskyIDs),
                    Eff.saveHash post.id contentHash])

/-! ### Rejoining split parts (spec §8's reconstruction property)

`splitContent` itself has no inverse in the code; these definitions render
the spec's rejoin operation.  `stripAll` removes the `" (i/total)"` suffix
appended to part `i`; `rejoinWithSpaces` is the spec's "re-insert the
single space at each cut boundary"; `joinWith` re-inserts exactly the
separator the cutting loop consumed. -/

/-- Modelled from the spec: drop the `" (i/total)"` suffix from each part,
`i` counting from `start + 1`. -/
def stripAll (total : Nat) : Nat → List Bytes → List Bytes
  | _, [] => []
  | i, p :: ps =>
    p.take (p.length - (suffixBytes (i + 1) total).length) :: stripAll total (i + 1) ps

/-- Modelled from the spec: the parts of `splitContent content` with their
position suffixes stripped (a single short part carries no suffix). -/
def strippedParts (content : Bytes) : List Bytes :=
  if content.length ≤ 300 then splitContent content
  else stripAll (splitContent content).length 0 (splitContent content)

/-- Join byte strings with a single space between consecutive elements. -/
def joinSpaces : List Bytes → Bytes
  | [] => []
  | [p] => p
  | p :: ps => p ++ 32 :: joinSpaces ps

/-- Modelled from the spec: rejoin parts re-inserting one space at every
cut boundary. -/
def rejoinWithSpaces (parts : List Bytes) : Bytes :=
  joinSpaces parts

/-- Interleave parts with the per-boundary separators (one separator
consumed after each non-final part; a trailing separator is kept). -/
def joinWith : List Bytes → List Bytes → Bytes
  | [], _ => []
  | p :: ps, [] => p ++ joinWith ps []
  | p :: ps, s :: ss => p ++ s ++ joinWith ps ss

/-- Separators consumed by the cutting loop of `splitContent` on `content`
(empty for a short single-part input). -/
def sepsOf (content : Bytes) : List Bytes :=
  if content.length ≤ 300 then []
  else cutSeps (effMaxOf content) (content.length + 1) content

/-! ### Content search and fuzzy acceptance
(`LookupBridgedMastodonPost` / `findPostByContentAndName`,
src/unnamed/part_000:769-875) -/

/-- ASCII white space, the fragment of `unicode.IsSpace` that
`strings.Fields` exercises on ASCII bytes. -/
def isSpaceByte (b : Nat) : Bool :=
  b = 32 || b = 9 || b = 10 || b = 11 || b = 12 || b = 13

/-- `strings.Fields` with an explicit step budget (`l.length + 1` always
suffices): maximal runs of non-space bytes. -/
def fieldsAux : Nat → Bytes → List Bytes
  | 0, _ => []
  | fuel + 1, [] => []
  | fuel + 1, b :: rest =>
    if isSpaceByte b then fieldsAux fuel rest
    else
      (b :: rest.takeWhile fun c => !isSpaceByte c) ::
        fieldsAux fuel (rest.dropWhile fun c => !isSpaceByte c)

/-- `strings.Fields` on bytes. -/
def fieldsBytes (l : Bytes) : List Bytes := fieldsAux (l.length + 1) l

/-- Word-accumulation loop building the bounded search string
(src/unnamed/part_000:776-789): append whole words while the running
length (plus one separator) stays within 30 bytes, stop at the first word
that does not fit. -/
def buildSearch : List Bytes → Bytes → Bytes
  | [], acc => acc
  | w :: ws, acc =>
    if acc.length + w.length + 1 ≤ 30 then
      buildSearch ws (if acc = [] then w else acc ++ 32 :: w)
    else acc

/-- Search string used by the content+identity fuzzy resolver: the content
itself when at most 30 bytes, otherwise the word accumulation starting from
the empty string. -/
def searchContentFor (postContent : Bytes) : Bytes :=
  if postContent.length ≤ 30 then postContent
  else buildSearch (fieldsBytes postContent) []

/-- Go `strings.Contains(s, sub)`: `sub` occurs contiguously in `s`. -/
def containsBytes (s sub : Bytes) : Bool :=
  (List.range (s.length + 1)).any fun i => List.isPrefixOf sub (s.drop i)

/-- One nanosecond-denominated hour, Go's `time.Hour`. -/
def nsHour : Int := 3600000000000

/-- Go's `24 * time.Hour`. -/
def nsDay : Int := 24 * nsHour

/-- Fields of a search-result post that `findPostByContentAndName` reads;
`createdAt` is `none` when `time.Parse` fails on the record's timestamp. -/
structure Candidate where
  uri : Bytes
  cid : Bytes
  displayName : Bytes
  text : Bytes
  createdAt : Option Int
deriving DecidableEq

/-- Acceptance test of `findPostByContentAndName`
(src/unnamed/part_000:848-872): display names equal or one contained in
the other, candidate text and searched content mutually containing, and a
parseable creation time strictly within ±24h of the source time.  The
nested `if`s and the `continue` on a parse failure collapse to this
conjunction for first-match selection. -/
def acceptCandidate (content displayName : Bytes) (postDate : Int)
    (c : Candidate) : Bool :=
  (c.displayName == displayName || containsBytes c.displayName displayName ||
      containsBytes displayName c.displayName) &&
  (containsBytes c.text content || containsBytes content c.text) &&
  (match c.createdAt with
   | none => false
   | some t => decide (t - postDate < nsDay) && decide (postDate - t < nsDay))

/-- Scan of the search results: the first accepted candidate, if any. -/
def findPostByContentAndName (cands : List Candidate)
    (content displayName : Bytes) (postDate : Int) : Option Candidate :=
  cands.find? (acceptCandidate content displayName postDate)

/-! ### UTF-8 structure of byte strings (for the byte-vs-character claims) -/

/-- UTF-8 continuation byte (`10xxxxxx`). -/
def isContByte (b : Nat) : Bool := 128 ≤ b && b < 192

/-- Structural UTF-8 validity: every lead byte is followed by its required
count of continuation bytes. -/
def utf8Valid : Bytes → Bool
  | [] => true
  | b :: rest =>
    if b < 128 then utf8Valid rest
    else if 192 ≤ b && b < 224 then
      match rest with
      | c1 :: r => isContByte c1 && utf8Valid r
      | [] => false
    else if 224 ≤ b && b < 240 then
      match rest with
      | c1 :: c2 :: r => isContByte c1 && isContByte c2 && utf8Valid r
      | _ => false
    else if 240 ≤ b && b < 248 then
      match rest with
      | c1 :: c2 :: c3 :: r =>
          isContByte c1 && isContByte c2 && isContByte c3 && utf8Valid r
      | _ => false
    else false

/-- Number of encoded characters of a valid UTF-8 byte string: one per
non-continuation byte. -/
def utf8CharCount (l : Bytes) : Nat :=
  (l.filter fun b => !isContByte b).length

/-- Bytes of one `'€'` (U+20AC), a three-byte UTF-8 character. -/
def euroBytes : Bytes := [226, 130, 172]

/-! ### Concrete inputs used to refute or witness individual claims -/

/-- A 1626-byte input: one 294-byte word, then eight 147-byte words, then a
147-byte word, all space-separated.  Its estimated part count is 6 (a
one-digit reserve of 6 bytes) but the cutter produces 10 parts, so part 1
receives the 7-byte suffix `" (1/10)"` on top of its 294 bytes. -/
def c1content : Bytes :=
  List.replicate 294 97 ++ [32] ++
    (List.replicate 8 (List.replicate 147 97 ++ [32])).flatten ++
    List.replicate 147 97

/-- One hundred fifty-one copies of `'€'`: 151 characters, 453 bytes. -/
def c9Split : Bytes := (List.replicate 151 euroBytes).flatten

/-- One ASCII byte followed by 101 `'€'`: 304 bytes, valid UTF-8, whose
297-byte cut falls in the middle of the final characters. -/
def c9Part : Bytes := 97 :: (List.replicate 101 euroBytes).flatten

/-- Thirty-three bytes reading `"aa  bb cccccccccccccccccccccccccc"`: the
double space makes the rebuilt search string diverge from the content. -/
def c7content : Bytes :=
  [97, 97, 32, 32, 98, 98] ++ [32] ++ List.replicate 26 99

end Truss

namespace Truss

/-! ### Lemmas: digit strings -/

lemma natDigitsAux_length :
    ∀ fuel n : Nat, n < fuel →
      (natDigitsAux fuel n).length = Nat.log 10 n + 1 := by
  intro fuel
  induction fuel with
  | zero => intro n h; omega
  | succ f ih =>
    intro n h
    unfold natDigitsAux
    by_cases h10 : n < 10
    · simp [h10, Nat.log_eq_zero_iff.mpr (Or.inl h10)]
    · have hd : n / 10 < f := by
        have := Nat.div_lt_self (show 0 < n by omega) (show 1 < 10 by omega)
        omega
      have hp := Nat.log_pos (show 1 < 10 by omega) (show 10 ≤ n by omega)
      have hdb := Nat.log_div_base n 10
      simp [h10, ih _ hd]
      omega

lemma natDigits_length (n : Nat) : (natDigits n).length = Nat.log 10 n + 1 :=
  natDigitsAux_length (n + 1) n (by omega)

lemma natDigits_length_mono {m n : Nat} (h : m ≤ n) :
    (natDigits m).length ≤ (natDigits n).length := by
  rw [natDigits_length, natDigits_length]
  have := Nat.log_mono_right (b := 10) h
  omega

lemma suffixBytes_length (i t : Nat) :
    (suffixBytes i t).length = (natDigits i).length + (natDigits t).length + 4 := by
  simp [suffixBytes]
  omega

lemma reserveOf_eq (content : Bytes) :
    reserveOf content = 2 * (natDigits (estOf content)).length + 4 := by
  rw [reserveOf, suffixBytes_length]
  omega

lemma effMaxOf_two {content : Bytes} (h : 0 < effMaxOf content) :
    2 ≤ effMaxOf content := by
  have := reserveOf_eq content
  unfold effMaxOf at *
  omega

/-! ### Lemmas: break-point scans -/

lemma backScan_le (r : Bytes) : ∀ b, backScan r b ≤ b := by
  intro b
  induction b with
  | zero => simp [backScan]
  | succ n ih =>
    unfold backScan
    split
    · exact Nat.le_refl _
    · omega

lemma fwdScanAux_some (r : Bytes) :
    ∀ fuel i j, fwdScanAux r fuel i = some j → i ≤ j ∧ j < i + fuel := by
  intro fuel
  induction fuel with
  | zero => intro i j h; simp [fwdScanAux] at h
  | succ f ih =>
    intro i j h
    unfold fwdScanAux at h
    split at h
    · cases h; omega
    · have := ih (i + 1) j h
      omega

lemma fwdScan_some (r : Bytes) (stop i j : Nat) (h : fwdScan r stop i = some j) :
    i ≤ j ∧ j < stop := by
  unfold fwdScan at h
  have hb := fwdScanAux_some r (stop - i) i j h
  by_cases hz : 0 < stop - i
  · omega
  · have h0 : stop - i = 0 := by omega
    rw [h0] at h
    simp [fwdScanAux] at h

lemma breakPointFor_le (e : Nat) (r : Bytes) : breakPointFor e r ≤ e := by
  unfold breakPointFor
  by_cases hb : backScan r e < e / 2
  · rw [if_pos hb]
    rcases hf : fwdScan r (min e r.length) (e / 2) with _ | j
    · exact Nat.le_refl e
    · have := fwdScan_some r _ _ _ hf
      by_cases hle : j ≤ e / 2
      · simp [hle]
      · simp only [if_neg hle]
        omega
  · rw [if_neg hb]
    exact backScan_le r e

lemma breakPointFor_pos (e : Nat) (r : Bytes) (he : 2 ≤ e) :
    1 ≤ breakPointFor e r := by
  unfold breakPointFor
  by_cases hb : backScan r e < e / 2
  · rw [if_pos hb]
    rcases hf : fwdScan r (min e r.length) (e / 2) with _ | j
    · show 1 ≤ e
      omega
    · have := fwdScan_some r _ _ _ hf
      by_cases hle : j ≤ e / 2
      · simp only [if_pos hle]
        omega
      · simp only [if_neg hle]
        omega
  · rw [if_neg hb]
    omega

lemma nextRemaining_lt (e : Nat) (r : Bytes) (he : 2 ≤ e) (hr : r ≠ []) :
    (nextRemaining e r).length < r.length := by
  have h1 := breakPointFor_pos e r he
  have hl : 0 < r.length := List.length_pos.mpr hr
  unfold nextRemaining
  split
  · simp only [List.length_drop]; omega
  · simp only [List.length_drop]; omega

/-! ### Lemmas: the cutting loop -/

lemma splitLoop_cut_le (e : Nat) :
    ∀ fuel r p, p ∈ splitLoop e fuel r → p.length ≤ e := by
  intro fuel
  induction fuel with
  | zero => intro r p h; simp [splitLoop] at h
  | succ f ih =>
    intro r p h
    unfold splitLoop at h
    by_cases h0 : r = []
    · simp [h0] at h
    · rw [if_neg h0] at h
      by_cases h1 : r.length ≤ e
      · rw [if_pos h1] at h
        simp at h
        subst h
        exact h1
      · rw [if_neg h1] at h
        rcases List.mem_cons.mp h with h2 | h2
        · subst h2
          simp only [List.length_take]
          have := breakPointFor_le e r
          omega
        · exact ih _ _ h2

lemma splitLoop_ne_nil (e fuel : Nat) (r : Bytes) (hf : 0 < fuel) (hr : r ≠ []) :
    splitLoop e fuel r ≠ [] := by
  cases fuel with
  | zero => omega
  | succ f =>
    unfold splitLoop
    rw [if_neg hr]
    by_cases h1 : r.length ≤ e
    · simp [h1]
    · simp [h1]

lemma splitLoop_fuel (e : Nat) (he : 2 ≤ e) :
    ∀ n f g r, r.length ≤ n → r.length < f → r.length < g →
      splitLoop e f r = splitLoop e g r := by
  intro n
  induction n with
  | zero =>
    intro f g r h hf hg
    have h0 : r = [] := List.length_eq_zero.mp (by omega)
    subst h0
    cases f with
    | zero => omega
    | succ f =>
      cases g with
      | zero => omega
      | succ g => simp [splitLoop]
  | succ n ih =>
    intro f g r h hf hg
    cases f with
    | zero => omega
    | succ f =>
      cases g with
      | zero => omega
      | succ g =>
        unfold splitLoop
        by_cases h0 : r = []
        · simp [h0]
        · rw [if_neg h0, if_neg h0]
          by_cases h1 : r.length ≤ e
          · rw [if_pos h1, if_pos h1]
          · rw [if_neg h1, if_neg h1]
            have hlt := nextRemaining_lt e r he h0
            rw [ih f g (nextRemaining e r) (by omega) (by omega) (by omega)]

lemma splitLoop_join (e : Nat) (he : 2 ≤ e) :
    ∀ fuel r, r.length < fuel →
      joinWith (splitLoop e fuel r) (cutSeps e fuel r) = r := by
  intro fuel
  induction fuel with
  | zero => intro r h; omega
  | succ f ih =>
    intro r h
    unfold splitLoop cutSeps
    by_cases h0 : r = []
    · simp [h0, joinWith]
    · rw [if_neg h0, if_neg h0]
      by_cases h1 : r.length ≤ e
      · rw [if_pos h1, if_pos h1]
        simp [joinWith]
      · rw [if_neg h1, if_neg h1]
        have hlt := nextRemaining_lt e r he h0
        have hnext : joinWith (splitLoop e f (nextRemaining e r))
            (cutSeps e f (nextRemaining e r)) = nextRemaining e r :=
          ih _ (by omega)
        by_cases hsp : breakPointFor e r < r.length ∧
            r.getD (breakPointFor e r) 0 = 32
        · rw [if_pos hsp]
          simp only [joinWith]
          rw [hnext]
          unfold nextRemaining
          rw [if_pos hsp]
          have hgd := List.getD_eq_getElem r 0 hsp.1
          conv_rhs => rw [← List.take_append_drop (breakPointFor e r) r]
          rw [List.drop_eq_getElem_cons hsp.1]
          rw [← hgd, hsp.2]
          simp
        · rw [if_neg hsp]
          simp only [joinWith]
          rw [hnext]
          unfold nextRemaining
          rw [if_neg hsp]
          simp [List.take_append_drop]

lemma cutSeps_mem (e : Nat) :
    ∀ fuel r s, s ∈ cutSeps e fuel r → s = [] ∨ s = [32] := by
  intro fuel
  induction fuel with
  | zero => intro r s h; simp [cutSeps] at h
  | succ f ih =>
    intro r s h
    unfold cutSeps at h
    by_cases h0 : r = []
    · simp [h0] at h
    · rw [if_neg h0] at h
      by_cases h1 : r.length ≤ e
      · rw [if_pos h1] at h
        simp at h
      · rw [if_neg h1] at h
        rcases List.mem_cons.mp h with h2 | h2
        · subst h2
          split
          · exact Or.inr rfl
          · exact Or.inl rfl
        · exact ih _ _ h2

/-! ### Lemmas: suffix application and stripping -/

lemma addSuffixes_length (t : Nat) :
    ∀ i ps, (addSuffixes t i ps).length = ps.length := by
  intro i ps
  induction ps generalizing i with
  | nil => simp [addSuffixes]
  | cons p ps ih => simp [addSuffixes, ih]

lemma mem_addSuffixes (t : Nat) :
    ∀ i ps q, q ∈ addSuffixes t i ps →
      ∃ j, j < ps.length ∧ q = ps.getD j [] ++ suffixBytes (i + j + 1) t := by
  intro i ps
  induction ps generalizing i with
  | nil => intro q h; simp [addSuffixes] at h
  | cons p ps ih =>
    intro q h
    rcases List.mem_cons.mp h with h2 | h2
    · exact ⟨0, by simp, by simpa using h2⟩
    · rcases ih (i + 1) q h2 with ⟨j, hj, hq⟩
      refine ⟨j + 1, by simp; omega, ?_⟩
      simpa [Nat.add_assoc, Nat.add_comm, Nat.add_left_comm] using hq

lemma stripAll_addSuffixes (t : Nat) :
    ∀ i ps, stripAll t i (addSuffixes t i ps) = ps := by
  intro i ps
  induction ps generalizing i with
  | nil => simp [addSuffixes, stripAll]
  | cons p ps ih =>
    simp only [addSuffixes, stripAll, ih]
    congr 1
    have hlen : (p ++ suffixBytes (i + 1) t).length -
        (suffixBytes (i + 1) t).length = p.length := by
      simp
    rw [hlen]
    exact List.take_left p (suffixBytes (i + 1) t)

/-! ### Lemmas: the posting loop -/

lemma isCreateB_not_mapping {a : Eff} (h : isCreateB a = true) :
    isMappingWriteB a = false := by
  cases a <;> simp_all [isCreateB, isMappingWriteB]

lemma postParts_eff_isCreate (bsky : Bsky) (pu pc : Bytes) (p2 : Bytes) (i : Nat)
    (lu lc : Bytes) :
    isCreateB (if i = 0 ∧ pu = [] ∧ pc = [] then Eff.createTop p2
      else Eff.createReply p2 lc lu) = true := by
  split <;> rfl

lemma postParts_error (bsky : Bsky) (pu pc e : Bytes) :
    ∀ (rs : List Bytes) (i : Nat) (parts acc : List Bytes) (lu lc : Bytes),
      rs.length < parts.length →
      (∀ j, j < rs.length → bsky.create (i + j) = Except.ok (rs.getD j []) ∧
        (splitOnByte 124 (rs.getD j [])).length = 2) →
      bsky.create (i + rs.length) = Except.error e →
      ∃ pre, postParts bsky pu pc i parts acc lu lc =
          (Except.error e,
            pre ++ (acc ++ rs).map
              fun r2 => Eff.deletePost ((splitOnByte 124 r2).headD [])) ∧
        pre.all isCreateB = true := by
  intro rs
  induction rs with
  | nil =>
    intro i parts acc lu lc hlen hok herr
    cases parts with
    | nil => simp at hlen
    | cons p rest =>
      simp only [List.length_nil, Nat.add_zero] at herr
      refine ⟨[if i = 0 ∧ pu = [] ∧ pc = [] then Eff.createTop (truncatePart p)
        else Eff.createReply (truncatePart p) lc lu], ?_, ?_⟩
      · simp only [postParts, herr]
        simp
      · simp [postParts_eff_isCreate bsky]
  | cons r2 rs ih =>
    intro i parts acc lu lc hlen hok herr
    cases parts with
    | nil => simp at hlen
    | cons p rest =>
      have h0 := hok 0 (by simp)
      simp only [List.getD_cons_zero, Nat.add_zero] at h0
      have hok' : ∀ j, j < rs.length →
          bsky.create (i + 1 + j) = Except.ok (rs.getD j []) ∧
          (splitOnByte 124 (rs.getD j [])).length = 2 := by
        intro j hj
        have := hok (j + 1) (by simp; omega)
        simpa [Nat.add_assoc, Nat.add_comm 1 j] using this
      have herr' : bsky.create (i + 1 + rs.length) = Except.error e := by
        have h2 : i + 1 + rs.length = i + (r2 :: rs).length := by simp; omega
        rw [h2]
        exact herr
      rcases ih (i + 1) rest (acc ++ [r2])
          ((splitOnByte 124 r2).headD []) ((splitOnByte 124 r2).getD 1 [])
          (by simp at hlen ⊢; omega) hok' herr' with ⟨pre, heq, hall⟩
      refine ⟨(if i = 0 ∧ pu = [] ∧ pc = [] then Eff.createTop (truncatePart p)
        else Eff.createReply (truncatePart p) lc lu) :: pre, ?_, ?_⟩
      · simp only [postParts, h0.1]
        rw [if_pos h0.2]
        rw [heq]
        simp
      · simp [postParts_eff_isCreate bsky, hall]

lemma postParts_ok (bsky : Bsky) (pu pc : Bytes) :
    ∀ (parts : List Bytes) (i : Nat) (acc : List Bytes) (lu lc : Bytes),
      (∀ j, j < parts.length → ∃ r2, bsky.create (i + j) = Except.ok r2 ∧
        (splitOnByte 124 r2).length = 2) →
      ∃ ids effs, postParts bsky pu pc i parts acc lu lc = (Except.ok ids, effs) ∧
        effs.all isCreateB = true := by
  intro parts
  induction parts with
  | nil => intro i acc lu lc h; exact ⟨acc, [], rfl, rfl⟩
  | cons p rest ih =>
    intro i acc lu lc h
    rcases h 0 (by simp) with ⟨r2, hok, hwf⟩
    simp only [Nat.add_zero] at hok
    have h' : ∀ j, j < rest.length → ∃ r3,
        bsky.create (i + 1 + j) = Except.ok r3 ∧ (splitOnByte 124 r3).length = 2 := by
      intro j hj
      have := h (j + 1) (by simp; omega)
      simpa [Nat.add_assoc, Nat.add_comm 1 j] using this
    rcases ih (i + 1) (acc ++ [r2])
        ((splitOnByte 124 r2).headD []) ((splitOnByte 124 r2).getD 1 []) h' with
      ⟨ids, effs, heq, hall⟩
    refine ⟨ids, (if i = 0 ∧ pu = [] ∧ pc = [] then Eff.createTop (truncatePart p)
      else Eff.createReply (truncatePart p) lc lu) :: effs, ?_, ?_⟩
    · simp only [postParts, hok]
      rw [if_pos hwf]
      rw [heq]
    · simp [postParts_eff_isCreate bsky, hall]

/-! ### Lemmas: CheckIfEdit leaves the other tables alone -/

lemma checkIfEdit_postMappings (db : Db) (m o : Bytes) :
    ((checkIfEdit db m o).2).postMappings = db.postMappings := by
  unfold checkIfEdit
  by_cases h : o ≠ [] ∧ o ≠ m
  · simp [h, markAsEdit]
  · rw [if_neg h]
    cases halo : alookup m db.edits <;> simp

lemma checkIfEdit_state (db : Db) (m o : Bytes) :
    ((checkIfEdit db m o).2).state = db.state := by
  unfold checkIfEdit
  by_cases h : o ≠ [] ∧ o ≠ m
  · simp [h, markAsEdit]
  · rw [if_neg h]
    cases halo : alookup m db.edits <;> simp

/-! ### Lemmas: the bounded search string -/

lemma joinSpaces_ne_nil (pre : List Bytes) (hp : pre ≠ [])
    (hh : pre.headD [] ≠ []) : joinSpaces pre ≠ [] := by
  cases pre with
  | nil => simp at hp
  | cons p rest =>
    cases rest with
    | nil => simpa [joinSpaces] using hh
    | cons q rest2 => simp [joinSpaces]

lemma joinSpaces_append_single (pre : List Bytes) (w : Bytes) (hp : pre ≠ []) :
    joinSpaces (pre ++ [w]) = joinSpaces pre ++ 32 :: w := by
  induction pre with
  | nil => simp at hp
  | cons p rest ih =>
    cases rest with
    | nil => simp [joinSpaces]
    | cons q rest2 =>
      have h2 := ih (by simp)
      simp only [List.cons_append, List.append_eq, joinSpaces] at h2 ⊢
      rw [h2]
      simp

lemma buildSearch_length_le :
    ∀ ws acc, acc.length ≤ 30 → (buildSearch ws acc).length ≤ 30 := by
  intro ws
  induction ws with
  | nil => intro acc h; simpa [buildSearch] using h
  | cons w rest ih =>
    intro acc h
    unfold buildSearch
    by_cases hf : acc.length + w.length + 1 ≤ 30
    · rw [if_pos hf]
      apply ih
      by_cases ha : acc = []
      · simp [ha]
        omega
      · rw [if_neg ha]
        simp
        omega
    · rw [if_neg hf]
      exact h

lemma buildSearch_join :
    ∀ ws (pre : List Bytes), pre ≠ [] → pre.headD [] ≠ [] →
      ∃ k, buildSearch ws (joinSpaces pre) = joinSpaces (pre ++ ws.take k) := by
  intro ws
  induction ws with
  | nil => intro pre hp hh; exact ⟨0, by simp [buildSearch]⟩
  | cons w rest ih =>
    intro pre hp hh
    unfold buildSearch
    by_cases hf : (joinSpaces pre).length + w.length + 1 ≤ 30
    · rw [if_pos hf]
      rw [if_neg (joinSpaces_ne_nil pre hp hh)]
      rw [show joinSpaces pre ++ 32 :: w = joinSpaces (pre ++ [w]) from
        (joinSpaces_append_single pre w hp).symm]
      rcases ih (pre ++ [w]) (by simp) (by cases pre with
        | nil => simp at hp
        | cons p r => simpa using hh) with ⟨k, hk⟩
      refine ⟨k + 1, ?_⟩
      rw [hk]
      congr 1
      simp [List.take_succ_cons, List.append_assoc]
    · rw [if_neg hf]
      exact ⟨0, by simp⟩

lemma fieldsAux_ne_nil :
    ∀ fuel l w, w ∈ fieldsAux fuel l → w ≠ [] := by
  intro fuel
  induction fuel with
  | zero => intro l w h; simp [fieldsAux] at h
  | succ f ih =>
    intro l w h
    cases l with
    | nil => simp [fieldsAux] at h
    | cons b rest =>
      unfold fieldsAux at h
      by_cases hs : isSpaceByte b = true
      · rw [if_pos hs] at h
        exact ih _ _ h
      · rw [if_neg hs] at h
        rcases List.mem_cons.mp h with h2 | h2
        · subst h2; simp
        · exact ih _ _ h2

/-! ### Lemmas: effect classification -/

lemma all_not_mapping_of_all_create {l : List Eff} (h : l.all isCreateB = true) :
    (l.all fun a => !(isMappingWriteB a)) = true := by
  rw [List.all_eq_true] at h ⊢
  intro a ha
  have := h a ha
  cases a <;> simp_all [isCreateB, isMappingWriteB]

lemma filter_mapping_of_all_create {l : List Eff} (h : l.all isCreateB = true) :
    l.filter isMappingWriteB = [] := by
  rw [List.filter_eq_nil_iff]
  intro a ha
  have := List.all_eq_true.mp h a ha
  cases a <;> simp_all [isCreateB, isMappingWriteB]

lemma filter_delete_of_all_create {l : List Eff} (h : l.all isCreateB = true) :
    l.filter isDeleteB = [] := by
  rw [List.filter_eq_nil_iff]
  intro a ha
  have := List.all_eq_true.mp h a ha
  cases a <;> simp_all [isCreateB, isDeleteB]

/-! ### Claim theorems: the splitter -/

/-- C1 (counterexample): on `c1content` the suffix reserve computed from the
estimated part count (6, one digit) is too small for the actual final count
(10, two digits); the first returned part is 301 bytes long, so not every
part of `splitContent` stays within 300 bytes after suffixing. -/
theorem splitContent_c1_counterexample :
    ((splitContent c1content).all fun p => p.length ≤ 300) = false := by
  decide

/-- C1 (amended): every part of `splitContent content` has length at most
300 after its suffix is appended, provided the actual final part count has
no more decimal digits than the estimated count used to size the reserve
(and the reserve itself does not exceed 300 bytes, true of any input a Go
string can hold). -/
theorem splitContent_c1_amended (content : Bytes)
    (hd : (natDigits (splitContent content).length).length ≤
      (natDigits (estOf content)).length)
    (hr : reserveOf content ≤ 300) :
    ((splitContent content).all fun p => p.length ≤ 300) = true := by
  rw [List.all_eq_true]
  intro p hp
  rw [decide_eq_true_eq]
  by_cases hc : content.length ≤ 300
  · simp only [splitContent, if_pos hc, List.mem_singleton] at hp
    subst hp
    exact hc
  · simp only [splitContent, if_neg hc] at hp hd
    rw [addSuffixes_length] at hd
    rcases mem_addSuffixes _ _ _ _ hp with ⟨j, hj, hq⟩
    subst hq
    have hmem : (splitLoop (effMaxOf content) (content.length + 1) content).getD j [] ∈
        splitLoop (effMaxOf content) (content.length + 1) content := by
      rw [List.getD_eq_getElem _ _ hj]
      exact List.getElem_mem hj
    have hcut := splitLoop_cut_le (effMaxOf content) _ _ _ hmem
    have hd1 : (natDigits (0 + j + 1)).length ≤
        (natDigits ((splitLoop (effMaxOf content) (content.length + 1) content).length)).length :=
      natDigits_length_mono (by omega)
    have hres := reserveOf_eq content
    have heff : effMaxOf content = 300 - reserveOf content := rfl
    rw [List.length_append, suffixBytes_length]
    omega

/-- C1 (amended, witness): the 301-byte all-`a` input satisfies the digit
hypothesis (estimate 2, actual 2) and every part stays within 300 bytes. -/
theorem splitContent_c1_amended_witness :
    ((splitContent (List.replicate 301 97)).all fun p => p.length ≤ 300) = true :=
  splitContent_c1_amended (List.replicate 301 97) (by decide) (by decide)

/-- C6 (counterexample): for 301 `a`s the two cuts are hard cuts (no space
was removed), so stripping the suffixes and rejoining with a space at the
boundary yields 302 bytes, not the original input. -/
theorem splitContent_c6_counterexample :
    rejoinWithSpaces (strippedParts (List.replicate 301 97)) ≠
      List.replicate 301 97 := by
  decide

/-- C6 (amended): stripping the `" (i/total)"` suffixes from the parts of
`splitContent` and rejoining them with, at each cut boundary, exactly the
separator the cutter consumed there (a single space when the cut landed on
a space, nothing on a hard cut) reconstructs the original input; every
boundary separator is one of those two. -/
theorem splitContent_c6_amended (content : Bytes) (h : 0 < effMaxOf content) :
    ((sepsOf content).all fun s => s == [] || s == [32]) = true ∧
    joinWith (strippedParts content) (sepsOf content) = content := by
  have he2 := effMaxOf_two h
  constructor
  · rw [List.all_eq_true]
    intro s hs
    by_cases hc : content.length ≤ 300
    · simp [sepsOf, hc] at hs
    · simp only [sepsOf, if_neg hc] at hs
      rcases cutSeps_mem _ _ _ _ hs with h2 | h2 <;> simp [h2]
  · by_cases hc : content.length ≤ 300
    · simp [sepsOf, strippedParts, splitContent, hc, joinWith]
    · simp only [sepsOf, strippedParts, splitContent, if_neg hc]
      rw [addSuffixes_length, stripAll_addSuffixes]
      exact splitLoop_join (effMaxOf content) he2 _ _ (by omega)

/-- C6 (amended, witness): a short input is reproduced unchanged with no
boundary separators. -/
theorem splitContent_c6_amended_witness :
    ((sepsOf (List.replicate 10 97)).all fun s => s == [] || s == [32]) = true ∧
    joinWith (strippedParts (List.replicate 10 97)) (sepsOf (List.replicate 10 97)) =
      List.replicate 10 97 :=
  splitContent_c6_amended (List.replicate 10 97) (by decide)

/-- C9: the length limits are byte counts, not character counts: the
453-byte/151-character input `c9Split` (at most 300 characters) is split
into several parts, and the last-resort truncation of the 304-byte valid
UTF-8 part `c9Part` takes its first 297 bytes plus `"..."`, cutting through
the middle of a character and leaving an invalid UTF-8 byte string. -/
theorem byteLimits_c9 :
    utf8CharCount c9Split ≤ 300 ∧ 300 < c9Split.length ∧
    2 ≤ (splitContent c9Split).length ∧
    utf8Valid c9Part = true ∧ 300 < c9Part.length ∧
    truncatePart c9Part = c9Part.take 297 ++ [46, 46, 46] ∧
    utf8Valid (truncatePart c9Part) = false := by
  decide

/-- C10: when the computed effective maximum part length is positive, the
splitter terminates: it returns at least one part, every iteration of the
cutting loop strictly shrinks the remaining text, and giving the loop any
fuel beyond the input length changes nothing. -/
theorem splitContent_c10_terminating (content : Bytes)
    (h : 0 < effMaxOf content) :
    1 ≤ (splitContent content).length ∧
    (∀ remaining : Bytes, remaining ≠ [] →
      (nextRemaining (effMaxOf content) remaining).length < remaining.length) ∧
    (∀ f, content.length < f →
      splitLoop (effMaxOf content) f content =
        splitLoop (effMaxOf content) (content.length + 1) content) := by
  have he2 := effMaxOf_two h
  refine ⟨?_, ?_, ?_⟩
  · by_cases hc : content.length ≤ 300
    · simp [splitContent, hc]
    · simp only [splitContent, if_neg hc]
      rw [addSuffixes_length]
      have hne : content ≠ [] := by
        intro hz
        rw [hz] at hc
        simp at hc
      have := splitLoop_ne_nil (effMaxOf content) (content.length + 1) content
        (by omega) hne
      have := List.length_pos.mpr this
      omega
  · intro remaining hrem
    exact nextRemaining_lt _ _ he2 hrem
  · intro f hf
    exact splitLoop_fuel (effMaxOf content) he2 content.length f
      (content.length + 1) content (by omega) hf (by omega)

/-- C10 (witness): instantiated at the one-byte input (effective maximum
294), a 295-byte remaining text, and fuel 5. -/
theorem splitContent_c10_witness :
    1 ≤ (splitContent [97]).length ∧
    (nextRemaining (effMaxOf [97]) (List.replicate 295 97)).length <
      (List.replicate 295 97 : Bytes).length ∧
    splitLoop (effMaxOf [97]) 5 [97] = splitLoop (effMaxOf [97]) 2 [97] := by
  have h := splitContent_c10_terminating [97] (by decide)
  exact ⟨h.1, h.2.1 (List.replicate 295 97) (by decide), h.2.2 5 (by decide)⟩

/-! ### Claim theorems: the edit tracker and the reconciliation paths -/

/-- C8: `CheckIfEdit` is not read-only: when the supplied original id is
non-empty and differs from the post id it writes (inserts or overwrites)
the `edits` row mapping the post id to the original id before returning;
in every other case the `edits` table — and all other tables — are left
unchanged. -/
theorem checkIfEdit_c8_effect (db : Db) (m o : Bytes) :
    ((checkIfEdit db m o).2).edits =
      (if o ≠ [] ∧ o ≠ m then ainsert m o db.edits else db.edits) ∧
    ((checkIfEdit db m o).2).postMappings = db.postMappings ∧
    ((checkIfEdit db m o).2).state = db.state := by
  refine ⟨?_, checkIfEdit_postMappings db m o, checkIfEdit_state db m o⟩
  unfold checkIfEdit
  by_cases h : o ≠ [] ∧ o ≠ m
  · simp [h, markAsEdit]
  · rw [if_neg h, if_neg h]
    cases halo : alookup m db.edits <;> simp

/-- C4: when the stored content fingerprint of a post equals the hash of its
current content, processing it again is a complete no-op — ok result, state
unchanged, empty effect trace — and iterating the processing any number of
times keeps the state fixed. -/
theorem processPostV2_c4_noop (cfg : Config) (hashFn : Bytes → Bytes) (db : Db)
    (masto : Masto) (bsky : Bsky) (post : Post)
    (h : alookup (contentHashKey post.id) db.state = some (hashFn post.content)) :
    processPostV2 cfg hashFn db masto bsky post = (Except.ok (), db, []) ∧
    ∀ n, (fun d => (processPostV2 cfg hashFn d masto bsky post).2.1)^[n] db = db := by
  have hh : getContentHash db post.id = hashFn post.content := by
    unfold getContentHash
    rw [h]
    rfl
  have hmain : processPostV2 cfg hashFn db masto bsky post = (Except.ok (), db, []) := by
    by_cases hb : post.reblog
    · simp [processPostV2, hb]
    · by_cases hv : post.visibility ≠ pubVis
      · simp [processPostV2, hb, hv]
      · by_cases ht : cfg.filterHashtag ≠ [] ∧
            ¬ (post.hashtags.any fun t => equalFold t cfg.filterHashtag)
        · simp [processPostV2, hb, hv, ht]
        · simp [processPostV2, hb, hv, ht, hh]
  refine ⟨hmain, ?_⟩
  intro n
  induction n with
  | zero => rfl
  | succ k ih =>
    rw [Function.iterate_succ_apply', ih]
    simp [hmain]

/-- C4 (witness): a concrete post whose stored fingerprint matches its
content hash is processed as a no-op, three iterations included. -/
theorem processPostV2_c4_noop_witness :
    processPostV2 ⟨[]⟩ (fun _ => [104]) ⟨[], [], [(contentHashKey [112], [104])]⟩
        ⟨Except.error [], Except.error []⟩ ⟨fun _ => Except.error []⟩
        ⟨[112], [99], false, pubVis, 0, [], [], [], [], [], []⟩ =
      (Except.ok (), ⟨[], [], [(contentHashKey [112], [104])]⟩, []) ∧
    (fun d => (processPostV2 ⟨[]⟩ (fun _ => [104]) d
        ⟨Except.error [], Except.error []⟩ ⟨fun _ => Except.error []⟩
        ⟨[112], [99], false, pubVis, 0, [], [], [], [], [], []⟩).2.1)^[3]
      ⟨[], [], [(contentHashKey [112], [104])]⟩ =
      ⟨[], [], [(contentHashKey [112], [104])]⟩ := by
  have h := processPostV2_c4_noop ⟨[]⟩ (fun _ => [104])
    ⟨[], [], [(contentHashKey [112], [104])]⟩
    ⟨Except.error [], Except.error []⟩ ⟨fun _ => Except.error []⟩
    ⟨[112], [99], false, pubVis, 0, [], [], [], [], [], []⟩ (by decide)
  exact ⟨h.1, h.2 3⟩

/-- C3: a reply whose parent is neither in the local mapping nor found by
the cross-platform lookup is skipped entirely: the run returns without
error, the persistent state is untouched, and the trace contains no create
call and no mapping write. -/
theorem processPostV2_c3_skips (cfg : Config) (hashFn : Bytes → Bytes) (db : Db)
    (masto : Masto) (bsky : Bsky) (post : Post) (e : Bytes)
    (h1 : post.inReplyToID ≠ [])
    (h2 : alookup post.inReplyToID db.postMappings = none)
    (h3 : masto.lookupBridged = Except.error e) :
    (processPostV2 cfg hashFn db masto bsky post).1 = Except.ok () ∧
    (processPostV2 cfg hashFn db masto bsky post).2.1 = db ∧
    ((processPostV2 cfg hashFn db masto bsky post).2.2.all
      fun a => !(isCreateB a) && !(isMappingWriteB a)) = true := by
  have hres : resolveParentV2 db masto post = none := by
    unfold resolveParentV2
    rw [if_neg h1]
    have hids : getBlueskyIDs db post.inReplyToID = none := by
      unfold getBlueskyIDs
      rw [h2]
      rfl
    rw [hids]
    cases hp : masto.getParent with
    | error e2 => rfl
    | ok pp =>
      by_cases hui : pp.username ≠ [] ∧ pp.instanceName ≠ []
      · simp only [if_pos hui, h3]
      · simp only [if_neg hui]
  simp only [processPostV2]
  split
  · exact ⟨rfl, rfl, rfl⟩
  · split
    · exact ⟨rfl, rfl, rfl⟩
    · split
      · exact ⟨rfl, rfl, rfl⟩
      · split
        · exact ⟨rfl, rfl, rfl⟩
        · rw [hres]
          refine ⟨rfl, rfl, ?_⟩
          rw [List.all_eq_true]
          intro a ha
          simp only at ha
          split at ha
          · split at ha
            · rename_i ids _ _
              split at ha
              · rcases List.mem_map.mp ha with ⟨id2, _, hid⟩
                subst hid
                rfl
              · simp at ha
            · simp at ha
          · simp at ha

/-- C3 (witness): a reply to an unmapped parent with a failing lookup is
skipped with no creates and no mapping writes. -/
theorem processPostV2_c3_skips_witness :
    (processPostV2 ⟨[]⟩ (fun _ => [104]) ⟨[], [], []⟩
        ⟨Except.error [], Except.error []⟩ ⟨fun _ => Except.error []⟩
        ⟨[112], [99], false, pubVis, 0, [113], [], [], [], [], []⟩).1 =
      Except.ok () ∧
    (processPostV2 ⟨[]⟩ (fun _ => [104]) ⟨[], [], []⟩
        ⟨Except.error [], Except.error []⟩ ⟨fun _ => Except.error []⟩
        ⟨[112], [99], false, pubVis, 0, [113], [], [], [], [], []⟩).2.1 =
      ⟨[], [], []⟩ ∧
    ((processPostV2 ⟨[]⟩ (fun _ => [104]) ⟨[], [], []⟩
        ⟨Except.error [], Except.error []⟩ ⟨fun _ => Except.error []⟩
        ⟨[112], [99], false, pubVis, 0, [113], [], [], [], [], []⟩).2.2.all
      fun a => !(isCreateB a) && !(isMappingWriteB a)) = true :=
  processPostV2_c3_skips ⟨[]⟩ (fun _ => [104]) ⟨[], [], []⟩
    ⟨Except.error [], Except.error []⟩ ⟨fun _ => Except.error []⟩
    ⟨[112], [99], false, pubVis, 0, [113], [], [], [], [], []⟩ []
    (by decide) rfl rfl

/-- C2: when the k-th create call of a run fails (after `k` successful,
well-formed creations), `ProcessPost` stops with that same error, the
persistent state is returned unchanged (so no mapping is written), and the
trace ends with one delete attempt for the URI field of each of the `k`
parts already created; everything before those deletes is create calls and
best-effort deletes, never a mapping write.  Delete outcomes do not appear:
the code ignores them, so the rollback never aborts on a delete error. -/
theorem processPostV2_c2_rollback (cfg : Config) (hashFn : Bytes → Bytes)
    (db : Db) (masto : Masto) (bsky : Bsky) (post : Post) (pu pc e : Bytes)
    (rs : List Bytes)
    (h1 : post.reblog = false)
    (h2 : post.visibility = pubVis)
    (h3 : ¬ (cfg.filterHashtag ≠ [] ∧
      ¬ (post.hashtags.any fun t => equalFold t cfg.filterHashtag)))
    (h4 : getContentHash db post.id ≠ hashFn post.content)
    (h5 : resolveParentV2 db masto post = some (pu, pc))
    (h6 : rs.length < (splitContent post.content).length)
    (h7 : ∀ j, j < rs.length → bsky.create j = Except.ok (rs.getD j []) ∧
      (splitOnByte 124 (rs.getD j [])).length = 2)
    (h8 : bsky.create rs.length = Except.error e) :
    ∃ pre, processPostV2 cfg hashFn db masto bsky post =
        (Except.error e, db,
          pre ++ rs.map fun r2 => Eff.deletePost ((splitOnByte 124 r2).headD [])) ∧
      (pre.all fun a => !(isMappingWriteB a)) = true := by
  rcases postParts_error bsky pu pc e rs 0 (splitContent post.content) []
      (if pu ≠ [] ∧ pc ≠ [] then pu else []) (if pu ≠ [] ∧ pc ≠ [] then pc else [])
      h6 (by intro j hj; simpa using h7 j hj) (by simpa using h8) with
    ⟨pre, heq, hall⟩
  refine ⟨(if getContentHash db post.id ≠ [] then
      (match getBlueskyIDs db post.id with
        | some ids => if 0 < ids.length then ids.map Eff.deletePost else []
        | none => [])
    else []) ++ pre, ?_, ?_⟩
  · simp only [processPostV2, h1, Bool.false_eq_true, if_false]
    rw [if_neg (by simp [h2]), if_neg h3, if_neg h4, h5]
    simp only []
    rw [heq]
    simp [List.append_assoc]
  · rw [List.all_append, Bool.and_eq_true]
    refine ⟨?_, all_not_mapping_of_all_create hall⟩
    rw [List.all_eq_true]
    intro a ha
    split at ha
    · split at ha
      · rename_i ids _
        split at ha
        · rcases List.mem_map.mp ha with ⟨id2, _, hid⟩
          subst hid
          rfl
        · simp at ha
      · simp at ha
    · simp at ha

/-- C2 (witness): a 301-byte post splits into two parts; part 0 is created
as `"u|c"`, part 1 fails, and the run surfaces the error, keeps the state,
and deletes `"u"`. -/
theorem processPostV2_c2_rollback_witness :
    ∃ pre, processPostV2 ⟨[]⟩ (fun _ => [104]) ⟨[], [], []⟩
        ⟨Except.error [], Except.error []⟩
        ⟨fun j => if j = 0 then Except.ok [117, 124, 99] else Except.error [98]⟩
        ⟨[112], List.replicate 301 97, false, pubVis, 0, [], [], [], [], [], []⟩ =
        (Except.error [98], ⟨[], [], []⟩,
          pre ++ [[117, 124, 99]].map fun r2 =>
            Eff.deletePost ((splitOnByte 124 r2).headD [])) ∧
      (pre.all fun a => !(isMappingWriteB a)) = true := by
  refine processPostV2_c2_rollback ⟨[]⟩ (fun _ => [104]) ⟨[], [], []⟩
    ⟨Except.error [], Except.error []⟩
    ⟨fun j => if j = 0 then Except.ok [117, 124, 99] else Except.error [98]⟩
    ⟨[112], List.replicate 301 97, false, pubVis, 0, [], [], [], [], [], []⟩
    [] [] [98] [[117, 124, 99]] rfl rfl (by decide) (by decide) rfl (by decide)
    ?_ rfl
  intro j hj
  have hj0 : j = 0 := by simpa using hj
  subst hj0
  exact ⟨rfl, by decide⟩

/-- C5 (counterexample): a post classified as an edit (its original id is
set and differs) whose first part creation fails produces zero PostMapping
writes — not exactly one write under the edited id as claimed. -/
theorem processPostV1_c5_counterexample :
    (checkIfEdit ⟨[([111], [117, 124, 99])], [], []⟩ [112] [111]).1.2 = true ∧
    ((processPostV1 ⟨[]⟩ ⟨[([111], [117, 124, 99])], [], []⟩
        ⟨fun _ => Except.error [98]⟩
        ⟨[112], [104], false, pubVis, 0, [], [], [111], [], [], []⟩).2.2.filter
      isMappingWriteB).length ≠ 1 := by
  decide

/-- C5 (amended): for a post classified as an edit (passing the skip
filters): when every part creation succeeds with a well-formed result, the
run ends ok with exactly one delete attempt per part previously mirrored
under the original id (none when no thread is stored there), exactly one
PostMapping write under the edited id and a matching write (same value)
under the original id exactly when the two ids differ; and when creation
of part k fails after k well-formed successes, the run aborts with that
same error, performs no PostMapping write at all, and its delete attempts
are exactly one per previously mirrored part of the original id followed
by the best-effort cleanup of the k parts just created. -/
theorem processPostV1_c5_amended (cfg : Config) (db : Db) (bsky : Bsky)
    (post : Post)
    (h1 : post.reblog = false)
    (h2 : post.visibility = pubVis)
    (h3 : ¬ (cfg.filterHashtag ≠ [] ∧
      ¬ (post.hashtags.any fun t => equalFold t cfg.filterHashtag)))
    (hEdit : (checkIfEdit db post.id post.originalID).1.2 = true) :
    ((∀ j, j < (splitContent post.content).length → ∃ r2,
        bsky.create j = Except.ok r2 ∧ (splitOnByte 124 r2).length = 2) →
      (processPostV1 cfg db bsky post).1 = Except.ok () ∧
      (∃ v, (processPostV1 cfg db bsky post).2.2.filter isMappingWriteB =
        if (checkIfEdit db post.id post.originalID).1.1 = post.id then
          [Eff.saveMapping post.id v]
        else [Eff.saveMapping post.id v,
          Eff.saveMapping (checkIfEdit db post.id post.originalID).1.1 v]) ∧
      (processPostV1 cfg db bsky post).2.2.filter isDeleteB =
        (match getBlueskyIDs db (checkIfEdit db post.id post.originalID).1.1 with
         | some ids2 => ids2.map fun id => Eff.deletePost (parseDeleteIdV1 id)
         | none => [])) ∧
    (∀ (rs : List Bytes) (e : Bytes),
      rs.length < (splitContent post.content).length →
      (∀ j, j < rs.length → bsky.create j = Except.ok (rs.getD j []) ∧
        (splitOnByte 124 (rs.getD j [])).length = 2) →
      bsky.create rs.length = Except.error e →
      (processPostV1 cfg db bsky post).1 = Except.error e ∧
      (processPostV1 cfg db bsky post).2.2.filter isMappingWriteB = [] ∧
      (processPostV1 cfg db bsky post).2.2.filter isDeleteB =
        (match getBlueskyIDs db (checkIfEdit db post.id post.originalID).1.1 with
         | some ids2 => ids2.map fun id => Eff.deletePost (parseDeleteIdV1 id)
         | none => []) ++
        rs.map fun r2 => Eff.deletePost ((splitOnByte 124 r2).headD [])) := by
  have hgb : getBlueskyIDs (checkIfEdit db post.id post.originalID).2
      (checkIfEdit db post.id post.originalID).1.1 =
      getBlueskyIDs db (checkIfEdit db post.id post.originalID).1.1 := by
    unfold getBlueskyIDs
    rw [checkIfEdit_postMappings]
  have hmark : ∀ p : Eff → Bool, p (Eff.markEdit post.id post.originalID) = false →
      ((if post.originalID ≠ [] ∧ post.originalID ≠ post.id then
        [Eff.markEdit post.id post.originalID] else []).filter p) = [] := by
    intro p hp
    split
    · simp [List.filter, hp]
    · rfl
  have hdel : ((match getBlueskyIDs db (checkIfEdit db post.id post.originalID).1.1 with
      | some ids2 => ids2.map fun id => Eff.deletePost (parseDeleteIdV1 id)
      | none => ([] : List Eff)).filter isMappingWriteB) = [] := by
    cases getBlueskyIDs db (checkIfEdit db post.id post.originalID).1.1 with
    | none => rfl
    | some ids2 =>
      rw [List.filter_eq_nil_iff]
      intro a ha
      rcases List.mem_map.mp ha with ⟨id2, _, hid⟩
      subst hid
      simp [isMappingWriteB]
  have hdelKeep :
      ((match getBlueskyIDs db (checkIfEdit db post.id post.originalID).1.1 with
      | some ids2 => ids2.map fun id => Eff.deletePost (parseDeleteIdV1 id)
      | none => ([] : List Eff)).filter isDeleteB) =
      (match getBlueskyIDs db (checkIfEdit db post.id post.originalID).1.1 with
      | some ids2 => ids2.map fun id => Eff.deletePost (parseDeleteIdV1 id)
      | none => ([] : List Eff)) := by
    cases getBlueskyIDs db (checkIfEdit db post.id post.originalID).1.1 with
    | none => rfl
    | some ids2 =>
      rw [List.filter_eq_self]
      intro a ha
      rcases List.mem_map.mp ha with ⟨id2, _, hid⟩
      subst hid
      simp [isDeleteB]
  have hcleanMap : ∀ rs2 : List Bytes,
      ((rs2.map fun r2 => Eff.deletePost ((splitOnByte 124 r2).headD [])).filter
        isMappingWriteB) = [] := by
    intro rs2
    rw [List.filter_eq_nil_iff]
    intro a ha
    rcases List.mem_map.mp ha with ⟨x, _, hx⟩
    subst hx
    simp [isMappingWriteB]
  have hcleanDel : ∀ rs2 : List Bytes,
      ((rs2.map fun r2 => Eff.deletePost ((splitOnByte 124 r2).headD [])).filter
        isDeleteB) =
      rs2.map fun r2 => Eff.deletePost ((splitOnByte 124 r2).headD []) := by
    intro rs2
    rw [List.filter_eq_self]
    intro a ha
    rcases List.mem_map.mp ha with ⟨x, _, hx⟩
    subst hx
    simp [isDeleteB]
  constructor
  · intro hOk
    rcases postParts_ok bsky (resolveParentV1 db post).1 (resolveParentV1 db post).2
        (splitContent post.content) 0 []
        (if (resolveParentV1 db post).1 ≠ [] ∧ (resolveParentV1 db post).2 ≠ [] then
          (resolveParentV1 db post).1 else [])
        (if (resolveParentV1 db post).1 ≠ [] ∧ (resolveParentV1 db post).2 ≠ [] then
          (resolveParentV1 db post).2 else [])
        (by intro j hj; simpa using hOk j hj) with ⟨ids, effs, heq, hall⟩
    have hrun : processPostV1 cfg db bsky post =
        (Except.ok (),
          (if (checkIfEdit db post.id post.originalID).1.2 = true ∧
              (checkIfEdit db post.id post.originalID).1.1 ≠ post.id then
            savePostMapping
              (savePostMapping (checkIfEdit db post.id post.originalID).2 post.id ids)
              (checkIfEdit db post.id post.originalID).1.1 ids
          else savePostMapping (checkIfEdit db post.id post.originalID).2 post.id ids),
          (if post.originalID ≠ [] ∧ post.originalID ≠ post.id then
            [Eff.markEdit post.id post.originalID] else []) ++
          (if (checkIfEdit db post.id post.originalID).1.2 = true then
            (match getBlueskyIDs db (checkIfEdit db post.id post.originalID).1.1 with
              | some ids2 => ids2.map fun id => Eff.deletePost (parseDeleteIdV1 id)
              | none => [])
          else []) ++ effs ++
          (if (checkIfEdit db post.id post.originalID).1.2 = true ∧
              (checkIfEdit db post.id post.originalID).1.1 ≠ post.id then
            [Eff.saveMapping post.id (List.intercalate [44] ids),
              Eff.saveMapping (checkIfEdit db post.id post.originalID).1.1
                (List.intercalate [44] ids)]
          else [Eff.saveMapping post.id (List.intercalate [44] ids)])) := by
      simp only [processPostV1, h1, Bool.false_eq_true, if_false]
      rw [if_neg (by simp [h2]), if_neg h3]
      rw [heq, hgb]
      simp only []
      split
      · rw [List.append_assoc, List.append_assoc]
      · rw [List.append_assoc, List.append_assoc]
    rw [hrun]
    refine ⟨rfl, ?_, ?_⟩
    · refine ⟨List.intercalate [44] ids, ?_⟩
      simp only [List.filter_append]
      rw [if_pos hEdit]
      rw [hmark isMappingWriteB rfl, hdel, filter_mapping_of_all_create hall]
      by_cases horig : (checkIfEdit db post.id post.originalID).1.1 = post.id
      · rw [if_pos horig, if_neg (fun hc => hc.2 horig)]
        simp [List.filter, isMappingWriteB]
      · rw [if_neg horig, if_pos ⟨hEdit, horig⟩]
        simp [List.filter, isMappingWriteB]
    · simp only [List.filter_append]
      rw [if_pos hEdit]
      rw [hmark isDeleteB rfl, filter_delete_of_all_create hall, hdelKeep]
      have hz : List.filter isDeleteB
          (if (checkIfEdit db post.id post.originalID).1.2 = true ∧
              (checkIfEdit db post.id post.originalID).1.1 ≠ post.id then
            [Eff.saveMapping post.id (List.intercalate [44] ids),
              Eff.saveMapping (checkIfEdit db post.id post.originalID).1.1
                (List.intercalate [44] ids)]
          else [Eff.saveMapping post.id (List.intercalate [44] ids)]) = [] := by
        split <;> rfl
      rw [hz]
      simp
  · intro rs e hlen hok herr
    rcases postParts_error bsky (resolveParentV1 db post).1 (resolveParentV1 db post).2
        e rs 0 (splitContent post.content) []
        (if (resolveParentV1 db post).1 ≠ [] ∧ (resolveParentV1 db post).2 ≠ [] then
          (resolveParentV1 db post).1 else [])
        (if (resolveParentV1 db post).1 ≠ [] ∧ (resolveParentV1 db post).2 ≠ [] then
          (resolveParentV1 db post).2 else [])
        hlen (by intro j hj; simpa using hok j hj) (by simpa using herr) with
      ⟨pre, heq, hall⟩
    have hrunE : processPostV1 cfg db bsky post =
        (Except.error e, (checkIfEdit db post.id post.originalID).2,
          ((if post.originalID ≠ [] ∧ post.originalID ≠ post.id then
            [Eff.markEdit post.id post.originalID] else []) ++
          (if (checkIfEdit db post.id post.originalID).1.2 = true then
            (match getBlueskyIDs db (checkIfEdit db post.id post.originalID).1.1 with
              | some ids2 => ids2.map fun id => Eff.deletePost (parseDeleteIdV1 id)
              | none => [])
          else [])) ++
          (pre ++ rs.map fun r2 => Eff.deletePost ((splitOnByte 124 r2).headD []))) := by
      simp only [processPostV1, h1, Bool.false_eq_true, if_false]
      rw [if_neg (by simp [h2]), if_neg h3]
      rw [heq, hgb]
      simp
    rw [hrunE]
    refine ⟨rfl, ?_, ?_⟩
    · simp only [List.filter_append]
      rw [if_pos hEdit]
      rw [hmark isMappingWriteB rfl, hdel, filter_mapping_of_all_create hall,
        hcleanMap rs]
      simp
    · simp only [List.filter_append]
      rw [if_pos hEdit]
      rw [hmark isDeleteB rfl, hdelKeep, filter_delete_of_all_create hall,
        hcleanDel rs]
      simp

/-- C5 (amended, witness): an edit of `"o"` by post `"p"` with a two-part
stored thread.  With creations succeeding, one mapping write under each id
with the same value and two delete attempts; with the first creation
failing, the error is surfaced, no mapping write happens, and the delete
attempts are exactly the two for the stored thread (no part was created). -/
theorem processPostV1_c5_amended_witness :
    ((processPostV1 ⟨[]⟩ ⟨[([111], [117, 124, 99, 44, 118, 124, 100])], [], []⟩
        ⟨fun _ => Except.ok [117, 124, 99]⟩
        ⟨[112], [104], false, pubVis, 0, [], [], [111], [], [], []⟩).1 =
      Except.ok () ∧
    (∃ v, (processPostV1 ⟨[]⟩ ⟨[([111], [117, 124, 99, 44, 118, 124, 100])], [], []⟩
        ⟨fun _ => Except.ok [117, 124, 99]⟩
        ⟨[112], [104], false, pubVis, 0, [], [], [111], [], [], []⟩).2.2.filter
        isMappingWriteB =
      if (checkIfEdit ⟨[([111], [117, 124, 99, 44, 118, 124, 100])], [], []⟩
          [112] [111]).1.1 = [112] then
        [Eff.saveMapping [112] v]
      else [Eff.saveMapping [112] v,
        Eff.saveMapping (checkIfEdit ⟨[([111], [117, 124, 99, 44, 118, 124, 100])],
          [], []⟩ [112] [111]).1.1 v]) ∧
    (processPostV1 ⟨[]⟩ ⟨[([111], [117, 124, 99, 44, 118, 124, 100])], [], []⟩
        ⟨fun _ => Except.ok [117, 124, 99]⟩
        ⟨[112], [104], false, pubVis, 0, [], [], [111], [], [], []⟩).2.2.filter
      isDeleteB =
      (match getBlueskyIDs ⟨[([111], [117, 124, 99, 44, 118, 124, 100])], [], []⟩
          (checkIfEdit ⟨[([111], [117, 124, 99, 44, 118, 124, 100])], [], []⟩
            [112] [111]).1.1 with
       | some ids2 => ids2.map fun id => Eff.deletePost (parseDeleteIdV1 id)
       | none => [])) ∧
    ((processPostV1 ⟨[]⟩ ⟨[([111], [117, 124, 99, 44, 118, 124, 100])], [], []⟩
        ⟨fun _ => Except.error [98]⟩
        ⟨[112], [104], false, pubVis, 0, [], [], [111], [], [], []⟩).1 =
      Except.error [98] ∧
    (processPostV1 ⟨[]⟩ ⟨[([111], [117, 124, 99, 44, 118, 124, 100])], [], []⟩
        ⟨fun _ => Except.error [98]⟩
        ⟨[112], [104], false, pubVis, 0, [], [], [111], [], [], []⟩).2.2.filter
      isMappingWriteB = [] ∧
    (processPostV1 ⟨[]⟩ ⟨[([111], [117, 124, 99, 44, 118, 124, 100])], [], []⟩
        ⟨fun _ => Except.error [98]⟩
        ⟨[112], [104], false, pubVis, 0, [], [], [111], [], [], []⟩).2.2.filter
      isDeleteB =
      (match getBlueskyIDs ⟨[([111], [117, 124, 99, 44, 118, 124, 100])], [], []⟩
          (checkIfEdit ⟨[([111], [117, 124, 99, 44, 118, 124, 100])], [], []⟩
            [112] [111]).1.1 with
       | some ids2 => ids2.map fun id => Eff.deletePost (parseDeleteIdV1 id)
       | none => []) ++
      ([] : List Bytes).map fun r2 =>
        Eff.deletePost ((splitOnByte 124 r2).headD [])) :=
  ⟨(processPostV1_c5_amended ⟨[]⟩
      ⟨[([111], [117, 124, 99, 44, 118, 124, 100])], [], []⟩
      ⟨fun _ => Except.ok [117, 124, 99]⟩
      ⟨[112], [104], false, pubVis, 0, [], [], [111], [], [], []⟩
      rfl rfl (by decide) (by decide)).1
      (fun j hj => ⟨[117, 124, 99], rfl, by decide⟩),
    (processPostV1_c5_amended ⟨[]⟩
      ⟨[([111], [117, 124, 99, 44, 118, 124, 100])], [], []⟩
      ⟨fun _ => Except.error [98]⟩
      ⟨[112], [104], false, pubVis, 0, [], [], [111], [], [], []⟩
      rfl rfl (by decide) (by decide)).2 [] [98] (by decide)
      (fun j hj => absurd hj (by simp)) rfl⟩

/-! ### Claim theorems: the content+identity fuzzy resolver -/

/-- C7 (counterexample): the search string built for a content longer than
30 bytes joins the leading words with single spaces, so for `c7content`
(whose first words are separated by a double space) it is *not* a prefix of
the content, contradicting the claim that the resolver searches with a
prefix of the content. -/
theorem searchContent_c7_counterexample :
    30 < c7content.length ∧
    List.isPrefixOf (searchContentFor c7content) c7content = false := by
  decide

/-- C7 (amended): the fuzzy resolver searches with a string of at most 30
bytes; the content itself when it fits, otherwise the single-space join of
a leading run of the content's whitespace-delimited words (a word-boundary
prefix of the content whenever its words are single-space separated).  A
candidate from the results is accepted only if all three hold: its author
display name equals or contains or is contained in the source display
name, its text and the searched content mutually contain one another, and
its creation timestamp parses and lies strictly within ±24 hours of the
source post's creation time. -/
theorem searchContent_c7_amended :
    (∀ content : Bytes, (searchContentFor content).length ≤ 30) ∧
    (∀ content : Bytes, content.length ≤ 30 → searchContentFor content = content) ∧
    (∀ content : Bytes, 30 < content.length →
      ∃ k, searchContentFor content = joinSpaces ((fieldsBytes content).take k)) ∧
    (∀ (cands : List Candidate) (content dn : Bytes) (pd : Int) (c : Candidate),
      findPostByContentAndName cands content dn pd = some c →
      (c.displayName = dn ∨ containsBytes c.displayName dn = true ∨
        containsBytes dn c.displayName = true) ∧
      (containsBytes c.text content = true ∨ containsBytes content c.text = true) ∧
      ∃ t, c.createdAt = some t ∧ t - pd < nsDay ∧ pd - t < nsDay) := by
  refine ⟨?_, ?_, ?_, ?_⟩
  · intro content
    unfold searchContentFor
    by_cases hc : content.length ≤ 30
    · rw [if_pos hc]
      exact hc
    · rw [if_neg hc]
      exact buildSearch_length_le _ [] (by simp)
  · intro content hc
    simp [searchContentFor, hc]
  · intro content hc
    unfold searchContentFor
    rw [if_neg (by omega)]
    cases hw : fieldsBytes content with
    | nil => exact ⟨0, by simp [buildSearch, joinSpaces]⟩
    | cons w ws =>
      unfold buildSearch
      by_cases hf : ([] : Bytes).length + w.length + 1 ≤ 30
      · rw [if_pos hf, if_pos rfl]
        have hwne : w ≠ [] :=
          fieldsAux_ne_nil _ _ _ (by rw [← fieldsBytes, hw]; simp)
        rcases buildSearch_join ws [w] (by simp) (by simpa using hwne) with ⟨k, hk⟩
        refine ⟨k + 1, ?_⟩
        rw [show joinSpaces [w] = w from rfl] at hk
        rw [hk]
        simp [List.take_succ_cons]
      · rw [if_neg hf]
        exact ⟨0, by simp [joinSpaces]⟩
  · intro cands content dn pd c hfind
    have hacc : acceptCandidate content dn pd c = true :=
      List.find?_some hfind
    unfold acceptCandidate at hacc
    simp only [Bool.and_eq_true, Bool.or_eq_true, beq_iff_eq] at hacc
    rcases hacc with ⟨⟨hname, htext⟩, htime⟩
    refine ⟨?_, ?_, ?_⟩
    · tauto
    · exact htext
    · cases hcr : c.createdAt with
      | none => rw [hcr] at htime; simp at htime
      | some t =>
        rw [hcr] at htime
        simp only [Bool.and_eq_true, decide_eq_true_eq] at htime
        exact ⟨t, rfl, htime.1, htime.2⟩

/-- C7 (amended, witness): a 31-byte single-word content yields the empty
search string (at most 30 bytes, the join of zero words); a candidate with
the exact display name, contained text and timestamp zero is accepted and
satisfies all three conditions. -/
theorem searchContent_c7_amended_witness :
    (searchContentFor (List.replicate 31 97)).length ≤ 30 ∧
    (∃ k, searchContentFor (List.replicate 31 97) =
      joinSpaces ((fieldsBytes (List.replicate 31 97)).take k)) ∧
    (((⟨[117], [99], [78], [104], some 0⟩ : Candidate).displayName = [78] ∨
      containsBytes (⟨[117], [99], [78], [104], some 0⟩ : Candidate).displayName
        [78] = true ∨
      containsBytes [78]
        (⟨[117], [99], [78], [104], some 0⟩ : Candidate).displayName = true) ∧
    (containsBytes (⟨[117], [99], [78], [104], some 0⟩ : Candidate).text [104] =
        true ∨
      containsBytes [104]
        (⟨[117], [99], [78], [104], some 0⟩ : Candidate).text = true) ∧
    ∃ t, (⟨[117], [99], [78], [104], some 0⟩ : Candidate).createdAt = some t ∧
      t - 0 < nsDay ∧ (0 : Int) - t < nsDay) := by
  have h := searchContent_c7_amended
  exact ⟨h.1 (List.replicate 31 97),
    h.2.2.1 (List.replicate 31 97) (by decide),
    h.2.2.2 [⟨[117], [99], [78], [104], some 0⟩] [104] [78] 0
      ⟨[117], [99], [78], [104], some 0⟩ (by decide)⟩

end Truss
